import Mathlib

/-!
Verification of the compaction scheduler in `bgs/compact.go`:
a deduplicating work queue, a status tracker, the compactor worker
loop, and the batch driver.  Go structures are embedded as Lean
structures; Go pointers that may be nil become `Option`; Go panics
become an explicit `GoResult.panic`; external collaborators
(identity lookup, shard compaction, candidate listing) become
function-valued fields of the `BGS` structure.
-/

namespace Indigo

/-- Go type `models.Uid`: an integer account identifier. -/
abbrev Uid := Nat

/-- One work item of the dedup queue: account id plus the `fast` flag. -/
structure QueueItem where
  uid : Uid
  fast : Bool
deriving Repr, DecidableEq

/-- The dedup queue: ordered list plus membership set
(`map[models.Uid]struct\x7b\x7d` in Go). -/
structure Queue where
  q : List QueueItem
  members : Finset Uid
deriving DecidableEq

/-- The zero-valued queue `NewCompactor` builds: empty list, empty member set. -/
def emptyQueue : Queue := { q := [], members := ∅ }

/-- Go method `queue.Append`: no-op when the uid is already a member, else insert at tail. -/
def Queue.Append (qu : Queue) (uid : Uid) (fast : Bool) : Queue :=
  if uid ∈ qu.members then qu
  else { q := qu.q ++ [⟨uid, fast⟩], members := insert uid qu.members }

/-- Go method `queue.Prepend`: no-op when the uid is already a member, else insert at head. -/
def Queue.Prepend (qu : Queue) (uid : Uid) (fast : Bool) : Queue :=
  if uid ∈ qu.members then qu
  else { q := ⟨uid, fast⟩ :: qu.q, members := insert uid qu.members }

/-- Go method `queue.Has`: membership test. -/
def Queue.Has (qu : Queue) (uid : Uid) : Bool := uid ∈ qu.members

/-- The scan in `queue.Remove`: drop the first list entry with the given
uid (the Go loop breaks after the first match). -/
def removeFirstUid : List QueueItem → Uid → List QueueItem
  | [], _ => []
  | x :: xs, uid => if x.uid = uid then xs else x :: removeFirstUid xs uid

/-- Go method `queue.Remove`: no-op when absent, else remove the first matching
entry and clear membership. -/
def Queue.Remove (qu : Queue) (uid : Uid) : Queue :=
  if uid ∈ qu.members then
    { q := removeFirstUid qu.q uid, members := qu.members.erase uid }
  else qu

/-- Go method `queue.Pop`: remove and return the head; `none` on an empty queue. -/
def Queue.Pop (qu : Queue) : Option QueueItem × Queue :=
  match qu.q with
  | [] => (none, qu)
  | x :: xs => (some x, { q := xs, members := qu.members.erase x.uid })

/-- One operation of the queue interface, for reasoning about arbitrary
call sequences. -/
inductive QOp where
  | append (uid : Uid) (fast : Bool)
  | prepend (uid : Uid) (fast : Bool)
  | remove (uid : Uid)
  | pop
deriving Repr, DecidableEq

/-- Apply one queue operation (the popped item, if any, is discarded). -/
def applyOp (qu : Queue) : QOp → Queue
  | .append uid fast => qu.Append uid fast
  | .prepend uid fast => qu.Prepend uid fast
  | .remove uid => qu.Remove uid
  | .pop => (qu.Pop).2

/-- Apply a sequence of queue operations starting from a given queue. -/
def applyOps (qu : Queue) : List QOp → Queue
  | [] => qu
  | op :: ops => applyOps (applyOp qu op) ops

/-- The dedup invariant: the listed uids are pairwise distinct and the
membership set is exactly the set of listed uids. -/
def QInv (qu : Queue) : Prop :=
  (qu.q.map QueueItem.uid).Nodup ∧ qu.members = (qu.q.map QueueItem.uid).toFinset

theorem qinv_empty : QInv emptyQueue := by
  constructor <;> simp [emptyQueue]

theorem qinv_append (qu : Queue) (h : QInv qu) (uid : Uid) (fast : Bool) :
    QInv (qu.Append uid fast) := by
  obtain ⟨hnd, hm⟩ := h
  unfold Queue.Append
  by_cases hin : uid ∈ qu.members
  · simp [hin]; exact ⟨hnd, hm⟩
  · simp only [hin, if_false]
    refine ⟨?_, ?_⟩
    · simp only [List.map_append, List.map_cons, List.map_nil]
      rw [List.nodup_append]
      refine ⟨hnd, List.nodup_singleton _, ?_⟩
      intro a ha hb
      simp at hb
      subst hb
      exact hin (by rw [hm]; simpa using ha)
    · simp only [List.map_append, List.map_cons, List.map_nil, List.toFinset_append]
      rw [hm]
      ext a
      simp [or_comm]

theorem qinv_prepend (qu : Queue) (h : QInv qu) (uid : Uid) (fast : Bool) :
    QInv (qu.Prepend uid fast) := by
  obtain ⟨hnd, hm⟩ := h
  unfold Queue.Prepend
  by_cases hin : uid ∈ qu.members
  · simp [hin]; exact ⟨hnd, hm⟩
  · simp only [hin, if_false]
    refine ⟨?_, ?_⟩
    · simp only [List.map_cons]
      rw [List.nodup_cons]
      refine ⟨fun hc => hin ?_, hnd⟩
      rw [hm]; simpa using hc
    · simp only [List.map_cons, List.toFinset_cons, hm]

theorem removeFirstUid_of_nodup (l : List QueueItem) (uid : Uid)
    (hnd : (l.map QueueItem.uid).Nodup) :
    (removeFirstUid l uid).map QueueItem.uid = (l.map QueueItem.uid).erase uid := by
  induction l with
  | nil => simp [removeFirstUid]
  | cons x xs ih =>
    simp only [List.map_cons, List.nodup_cons] at hnd
    by_cases hx : x.uid = uid
    · simp [removeFirstUid, hx, List.erase_cons_head]
    · simp only [removeFirstUid, hx, if_false, List.map_cons]
      rw [List.erase_cons_tail (by simpa using hx)]
      rw [ih hnd.2]

theorem qinv_remove (qu : Queue) (h : QInv qu) (uid : Uid) :
    QInv (qu.Remove uid) := by
  obtain ⟨hnd, hm⟩ := h
  unfold Queue.Remove
  by_cases hin : uid ∈ qu.members
  · simp only [hin, if_true]
    refine ⟨?_, ?_⟩
    · rw [removeFirstUid_of_nodup _ _ hnd]
      exact hnd.erase uid
    · rw [removeFirstUid_of_nodup _ _ hnd, hm]
      ext a
      simp [Finset.mem_erase, List.mem_toFinset, List.Nodup.mem_erase_iff hnd]
  · simp [hin]; exact ⟨hnd, hm⟩

theorem qinv_pop (qu : Queue) (h : QInv qu) : QInv (qu.Pop).2 := by
  obtain ⟨hnd, hm⟩ := h
  cases hq : qu.q with
  | nil =>
    refine ⟨?_, ?_⟩
    · simp [Queue.Pop, hq]
    · simp only [Queue.Pop, hq]
      rw [hq] at hm
      simpa using hm
  | cons x xs =>
    rw [hq] at hnd hm
    simp only [List.map_cons, List.nodup_cons] at hnd
    simp only [Queue.Pop, hq]
    refine ⟨hnd.2, ?_⟩
    rw [hm]
    ext a
    simp only [List.map_cons, Finset.mem_erase, List.toFinset_cons, Finset.mem_insert,
      List.mem_toFinset]
    constructor
    · rintro ⟨hne, h1 | h1⟩
      · exact absurd h1 hne
      · exact h1
    · intro ha
      exact ⟨fun he => hnd.1 (he ▸ ha), Or.inr ha⟩

theorem qinv_applyOp (qu : Queue) (h : QInv qu) (op : QOp) : QInv (applyOp qu op) := by
  cases op with
  | append uid fast => exact qinv_append qu h uid fast
  | prepend uid fast => exact qinv_prepend qu h uid fast
  | remove uid => exact qinv_remove qu h uid
  | pop => exact qinv_pop qu h

theorem qinv_applyOps (qu : Queue) (h : QInv qu) (ops : List QOp) :
    QInv (applyOps qu ops) := by
  induction ops generalizing qu with
  | nil => exact h
  | cons op ops ih => exact ih _ (qinv_applyOp qu h op)

/-- Under the invariant, queue length equals membership cardinality. -/
theorem qinv_length_eq_card (qu : Queue) (h : QInv qu) :
    qu.q.length = qu.members.card := by
  obtain ⟨hnd, hm⟩ := h
  rw [hm, List.toFinset_card_of_nodup hnd, List.length_map]

/-- Successive pops, bounded by a fuel (the queue length suffices). -/
def drainGo : Nat → Queue → List QueueItem
  | 0, _ => []
  | n + 1, qu =>
    match qu.Pop with
    | (none, _) => []
    | (some x, qu') => x :: drainGo n qu'

/-- The sequence of items returned by popping the queue until empty. -/
def drain (qu : Queue) : List QueueItem := drainGo qu.q.length qu

theorem drainGo_eq (l : List QueueItem) : ∀ qu : Queue, qu.q = l → drainGo l.length qu = l := by
  induction l with
  | nil => intro qu _; simp [drainGo]
  | cons x xs ih =>
    intro qu hq
    simp only [List.length_cons, drainGo, Queue.Pop, hq]
    rw [ih { q := xs, members := qu.members.erase x.uid } rfl]

theorem drain_eq_q (qu : Queue) : drain qu = qu.q := drainGo_eq qu.q qu rfl

/-- Folding `Append` over an empty queue, as a pure enqueue sequence. -/
def buildAppend (items : List QueueItem) : Queue :=
  items.foldl (fun q it => q.Append it.uid it.fast) emptyQueue

theorem foldl_append_fresh (items : List QueueItem) :
    ∀ qu : Queue, (items.map QueueItem.uid).Nodup →
      (∀ it ∈ items, it.uid ∉ qu.members) →
      (items.foldl (fun q it => q.Append it.uid it.fast) qu).q = qu.q ++ items
      ∧ (items.foldl (fun q it => q.Append it.uid it.fast) qu).members
          = qu.members ∪ (items.map QueueItem.uid).toFinset := by
  induction items with
  | nil => intro qu _ _; simp
  | cons it its ih =>
    intro qu hnd hfresh
    simp only [List.map_cons, List.nodup_cons] at hnd
    have hit : it.uid ∉ qu.members := hfresh it (by simp)
    have hstep : qu.Append it.uid it.fast
        = { q := qu.q ++ [it], members := insert it.uid qu.members } := by
      simp [Queue.Append, hit]
    rw [List.foldl_cons, hstep]
    have ih2 := ih { q := qu.q ++ [it], members := insert it.uid qu.members } hnd.2 ?_
    · refine ⟨?_, ?_⟩
      · rw [ih2.1]; simp
      · rw [ih2.2]
        ext a
        simp only [List.map_cons, List.toFinset_cons, Finset.mem_union, Finset.mem_insert]
        tauto
    · intro x hx
      simp only [Finset.mem_insert, not_or]
      refine ⟨?_, hfresh x (by simp [hx])⟩
      intro he
      exact hnd.1 (he ▸ List.mem_map_of_mem QueueItem.uid hx)

/-- C3: for every sequence of `Append`/`Prepend`/`Remove`/`Pop` operations
starting from the empty queue, the listed account ids are pairwise
distinct and the queue length equals the cardinality of the membership
set; moreover an `Append` or `Prepend` for an already-present account id
is a complete no-op (the queue, including the priority flag of the existing entry, and the rest of the
flag, is unchanged — first writer wins). -/
theorem queue_dedup_invariant (ops : List QOp) :
    (((applyOps emptyQueue ops).q.map QueueItem.uid).Nodup
      ∧ (applyOps emptyQueue ops).q.length = (applyOps emptyQueue ops).members.card)
    ∧ (∀ (qu : Queue) (uid : Uid) (fast : Bool), uid ∈ qu.members →
        qu.Append uid fast = qu ∧ qu.Prepend uid fast = qu) := by
  have hinv := qinv_applyOps emptyQueue qinv_empty ops
  refine ⟨⟨hinv.1, qinv_length_eq_card _ hinv⟩, ?_⟩
  intro qu uid fast hin
  constructor
  · simp [Queue.Append, hin]
  · simp [Queue.Prepend, hin]

/-- Witness for C3 at a concrete operation sequence and a concrete
already-present append. -/
theorem queue_dedup_invariant_witness :
    (((applyOps emptyQueue
        [QOp.append 1 false, QOp.append 2 true, QOp.prepend 3 false,
         QOp.append 1 true, QOp.remove 2, QOp.pop]).q.map QueueItem.uid).Nodup
      ∧ (applyOps emptyQueue
        [QOp.append 1 false, QOp.append 2 true, QOp.prepend 3 false,
         QOp.append 1 true, QOp.remove 2, QOp.pop]).q.length
        = (applyOps emptyQueue
        [QOp.append 1 false, QOp.append 2 true, QOp.prepend 3 false,
         QOp.append 1 true, QOp.remove 2, QOp.pop]).members.card)
    ∧ Queue.Append { q := [⟨1, false⟩], members := {1} } 1 true
        = { q := [⟨1, false⟩], members := {1} } := by
  have h := queue_dedup_invariant
    [QOp.append 1 false, QOp.append 2 true, QOp.prepend 3 false,
     QOp.append 1 true, QOp.remove 2, QOp.pop]
  exact ⟨h.1, (h.2 { q := [⟨1, false⟩], members := {1} } 1 true (by decide)).1⟩

/-- C8: an `Append`-only sequence with pairwise-distinct account ids is
drained by successive `Pop`s in insertion order (FIFO), and a `Prepend`
of a not-present account id places its item at the head, so the next
`Pop` returns it before everything previously appended. -/
theorem queue_fifo_and_prepend_overtakes (items : List QueueItem)
    (hnd : (items.map QueueItem.uid).Nodup) :
    drain (buildAppend items) = items
    ∧ (∀ (qu : Queue) (uid : Uid) (fast : Bool), uid ∉ qu.members →
        (qu.Prepend uid fast).q = ⟨uid, fast⟩ :: qu.q
        ∧ ((qu.Prepend uid fast).Pop).1 = some ⟨uid, fast⟩) := by
  constructor
  · have h := foldl_append_fresh items emptyQueue hnd (by intro it _; simp [emptyQueue])
    rw [drain_eq_q, buildAppend, h.1]
    simp [emptyQueue]
  · intro qu uid fast hout
    have hq : (qu.Prepend uid fast).q = ⟨uid, fast⟩ :: qu.q := by
      simp [Queue.Prepend, hout]
    refine ⟨hq, ?_⟩
    simp [Queue.Pop, hq]

/-- Witness for C8: `Append(A)`, `Append(B)`, `Append(C)` drains as
A, B, C, and a `Prepend(C)` after `Append(A)`, `Append(B)` pops first. -/
theorem queue_fifo_witness :
    drain (buildAppend [⟨1, false⟩, ⟨2, false⟩, ⟨3, true⟩])
        = [⟨1, false⟩, ⟨2, false⟩, ⟨3, true⟩]
    ∧ ((Queue.Prepend { q := [⟨1, false⟩, ⟨2, false⟩], members := {1, 2} } 3 false).Pop).1
        = some ⟨3, false⟩ := by
  have h := queue_fifo_and_prepend_overtakes
    [⟨1, false⟩, ⟨2, false⟩, ⟨3, true⟩] (by decide)
  exact ⟨h.1,
    (h.2 { q := [⟨1, false⟩, ⟨2, false⟩], members := {1, 2} } 3 false (by decide)).2⟩

/-- Go type `carstore.CompactionStats`: opaque outcome record of the external
shard-compaction collaborator; only handed around, never inspected. -/
structure CompactionStats where
  val : Nat
deriving Repr, DecidableEq

/-- Go type `CompactorState`: the status snapshot (`stats` is a nilable pointer). -/
structure CompactorState where
  latestUID : Uid
  latestDID : String
  status : String
  stats : Option CompactionStats
deriving Repr, DecidableEq

/-- A Go `chan struct\x7b\x7d` as far as this code observes it: either the
nil channel, or an allocated channel with a closed flag.  Nothing in the
file ever sends on the channel, so a receive can proceed only when the
channel is non-nil and closed. -/
inductive Chan where
  | nil
  | mk (closed : Bool)
deriving Repr, DecidableEq

/-- Whether a receive on the channel can fire: never on nil (a receive on
a nil channel blocks forever), only when closed otherwise (nobody sends). -/
def chanReady : Chan → Bool
  | .nil => false
  | .mk closed => closed

/-- The `Compactor`: dedup queue, nilable status-snapshot pointer
(`state *CompactorState`), and the exit channel. -/
structure Compactor where
  q : Queue
  state : Option CompactorState
  exit : Chan
deriving DecidableEq

/-- Go constructor `NewCompactor`: only the queue is initialized; `state` and `exit`
keep their zero values (nil pointer, nil channel). -/
def NewCompactor : Compactor :=
  { q := emptyQueue, state := none, exit := Chan.nil }

/-- Outcome of running a piece of Go code that may panic. -/
inductive GoResult (α : Type) where
  | panic (msg : String)
  | ok (a : α)
deriving Repr, DecidableEq

/-- Go method `(*Compactor).SetState`: writes through `c.state`; dereferencing a nil
pointer panics, which is `none` here. -/
def Compactor.SetState (c : Compactor) (uid : Uid) (did status : String)
    (stats : Option CompactionStats) : Option Compactor :=
  match c.state with
  | none => none
  | some _ => some { c with state := some ⟨uid, did, status, stats⟩ }

/-- Go method `(*Compactor).GetState`: returns a field-by-field copy of `*c.state`;
panics when the pointer is nil. -/
def Compactor.GetState (c : Compactor) : GoResult CompactorState :=
  match c.state with
  | none => GoResult.panic "invalid memory address or nil pointer dereference"
  | some s => GoResult.ok ⟨s.latestUID, s.latestDID, s.status, s.stats⟩

/-- The slice of the `User` record `CompactNext` reads. -/
structure User where
  ID : Uid
  Did : String
deriving Repr, DecidableEq

/-- Go type `carstore.CompactionTarget`: candidate record from the storage layer. -/
structure CompactionTarget where
  Usr : Uid
deriving Repr, DecidableEq

/-- The collaborators reachable through the `*BGS` handle, as functions:
identity lookup (`bgs.lookupUserByUID`), shard compaction
(`bgs.repoman.CarStore().CompactUserShards`) and candidate listing
(`bgs.repoman.CarStore().GetCompactionTargets`). -/
structure BGS where
  lookupUserByUID : Uid → Except String User
  compactUserShards : Uid → Bool → Except String CompactionStats
  getCompactionTargets : Int → Except String (List CompactionTarget)

/-- The errors `CompactNext` can return: the sentinel
`errNoReposToCompact`, or one of the two wrapped errors. -/
inductive CompactErr where
  | noReposToCompact
  | failedGetUser (uid : Uid) (inner : String)
  | failedCompact (uid : Uid) (inner : String)
deriving Repr, DecidableEq

/-- Result of one `CompactNext` call when it does not panic: the updated
compactor, the number of duration observations emitted to the metrics
collaborator, and the Go return pair `(*CompactorState, error)` where a
nil pointer is `none`. -/
structure CompactNextOut where
  c : Compactor
  observations : Nat
  trace : List CompactorState
  retState : Option CompactorState
  retErr : Option CompactErr
deriving DecidableEq

/-- Go method `(*Compactor).CompactNext`: pop one item, walk it through the
per-item state machine, returning the final snapshot or a wrapped
error.  A nil `c.state` makes `SetState` panic.  The `trace` field of
the result records every snapshot written by `SetState`, in call order,
so that the intermediate stage transitions stay observable. -/
def Compactor.CompactNext (c : Compactor) (bgs : BGS) : GoResult CompactNextOut :=
  match c.q.Pop with
  | (none, _) => GoResult.ok ⟨c, 0, [], none, some CompactErr.noReposToCompact⟩
  | (some item, q1) =>
    let c0 : Compactor := { c with q := q1 }
    match c0.SetState item.uid "unknown" "getting_user" none with
    | none => GoResult.panic "invalid memory address or nil pointer dereference"
    | some c1 =>
      let t1 : CompactorState := ⟨item.uid, "unknown", "getting_user", none⟩
      match bgs.lookupUserByUID item.uid with
      | Except.error e =>
        match c1.SetState item.uid "unknown" "failed_getting_user" none with
        | none => GoResult.panic "invalid memory address or nil pointer dereference"
        | some c2 =>
          GoResult.ok ⟨c2, 0, [t1, ⟨item.uid, "unknown", "failed_getting_user", none⟩],
            none, some (CompactErr.failedGetUser item.uid e)⟩
      | Except.ok user =>
        match c1.SetState item.uid user.Did "compacting" none with
        | none => GoResult.panic "invalid memory address or nil pointer dereference"
        | some c2 =>
          let t2 : CompactorState := ⟨item.uid, user.Did, "compacting", none⟩
          match bgs.compactUserShards item.uid item.fast with
          | Except.error e =>
            match c2.SetState item.uid user.Did "failed_compacting" none with
            | none => GoResult.panic "invalid memory address or nil pointer dereference"
            | some c3 =>
              GoResult.ok ⟨c3, 0, [t1, t2, ⟨item.uid, user.Did, "failed_compacting", none⟩],
                none, some (CompactErr.failedCompact item.uid e)⟩
          | Except.ok st =>
            match c2.SetState item.uid user.Did "done" (some st) with
            | none => GoResult.panic "invalid memory address or nil pointer dereference"
            | some c3 =>
              match c3.GetState with
              | GoResult.panic m => GoResult.panic m
              | GoResult.ok s =>
                GoResult.ok ⟨c3, 1, [t1, t2, ⟨item.uid, user.Did, "done", some st⟩],
                  some s, none⟩

/-- Go method `(*Compactor).EnqueueRepo`: append one item; side effect only. -/
def Compactor.EnqueueRepo (c : Compactor) (user : User) (fast : Bool) : Compactor :=
  { c with q := c.q.Append user.ID fast }

/-- Outcome of one iteration of the loop body of `Run`. -/
inductive RunOutcome where
  | exited
  | panicked (msg : String)
  | continued (c : Compactor)
deriving DecidableEq

/-- One iteration of `(*Compactor).Run`: take the exit branch when the
exit channel is ready; otherwise call `CompactNext`.  `errNoReposToCompact`
logs and sleeps 5s; any other error is logged via the *returned* state
pointer (`state.latestUID`, …) — a nil pointer there panics — then the
loop sleeps 100ms and continues; success logs the same fields and
continues without delay. -/
def Compactor.runStep (c : Compactor) (bgs : BGS) : RunOutcome :=
  if chanReady c.exit then RunOutcome.exited
  else
    match c.CompactNext bgs with
    | GoResult.panic m => RunOutcome.panicked m
    | GoResult.ok out =>
      match out.retErr with
      | some CompactErr.noReposToCompact => RunOutcome.continued out.c
      | some _ =>
        match out.retState with
        | none => RunOutcome.panicked "invalid memory address or nil pointer dereference"
        | some _ => RunOutcome.continued out.c
      | none => RunOutcome.continued out.c

/-- Go method `(*Compactor).Run` with fuel: `none` means the loop is still running
after that many iterations. -/
def Compactor.run (c : Compactor) (bgs : BGS) : Nat → Option RunOutcome
  | 0 => none
  | n + 1 =>
    match c.runStep bgs with
    | RunOutcome.exited => some RunOutcome.exited
    | RunOutcome.panicked m => some (RunOutcome.panicked m)
    | RunOutcome.continued c' => c'.run bgs n

/-- The truncation `if lim > 0 && len(repos) > lim \x7b repos = repos[:lim] \x7d`,
shared verbatim by `EnqueueAllRepos` and `runRepoCompaction`. -/
def truncateLim (lim : Int) (repos : List CompactionTarget) : List CompactionTarget :=
  if 0 < lim ∧ lim < (repos.length : Int) then repos.take lim.toNat else repos

/-- Appending every candidate of a list to a queue, as the enqueue loop
of `EnqueueAllRepos` does. -/
def appendAll (qu : Queue) (L : List CompactionTarget) (fast : Bool) : Queue :=
  L.foldl (fun q r => q.Append r.Usr fast) qu

/-- Go method `(*Compactor).EnqueueAllRepos`: default the shard-count threshold to
50 when 0, list candidates, truncate to the first `lim` when `lim > 0`
and more were returned, and append each surviving candidate. -/
def Compactor.EnqueueAllRepos (c : Compactor) (bgs : BGS) (lim shardCount : Int)
    (fast : Bool) : Except String Compactor :=
  let sc := if shardCount = 0 then 50 else shardCount
  match bgs.getCompactionTargets sc with
  | Except.error e => Except.error ("failed to get repos to compact: " ++ e)
  | Except.ok repos0 =>
    Except.ok { c with q := appendAll c.q (truncateLim lim repos0) fast }

/-- Go type `compactionStats`: the batch result.  The Go `map[models.Uid]*CompactionStats`
is kept as the association list of insertions in iteration order (each key is
written at most once per distinct uid because `compactUserShards` is a function
of the uid). -/
structure BatchResult where
  Completed : List (Uid × CompactionStats)
  Targets : List CompactionTarget
deriving Repr, DecidableEq

/-- The compaction loop of `runRepoCompaction`, iterating candidates in
order.  `cancelled i` tells whether the done channel of the context is ready
at the check made before processing the candidate at index `i`; the loop
then stops gathering.  Returns the results gathered, the uids for which
the compaction collaborator was called, and whether cancellation cut the
loop short. -/
def batchLoop (compact : Uid → Bool → Except String CompactionStats)
    (cancelled : Nat → Bool) (fast : Bool) :
    List CompactionTarget → Nat → List (Uid × CompactionStats) × List Uid × Bool
  | [], _ => ([], [], false)
  | r :: rs, i =>
    if cancelled i then ([], [], true)
    else
      match compact r.Usr fast with
      | Except.error _ =>
        let (res, calls, stopped) := batchLoop compact cancelled fast rs (i + 1)
        (res, r.Usr :: calls, stopped)
      | Except.ok st =>
        let (res, calls, stopped) := batchLoop compact cancelled fast rs (i + 1)
        ((r.Usr, st) :: res, r.Usr :: calls, stopped)

/-- Go method `(*BGS).runRepoCompaction`: list candidates at threshold 50, apply the
`lim` truncation, return targets only on a dry run, otherwise run the
compaction loop.  Alongside the `BatchResult`, the uids for which the
compaction collaborator was invoked are returned for observability. -/
def BGS.runRepoCompaction (bgs : BGS) (cancelled : Nat → Bool) (lim : Int)
    (dry fast : Bool) : Except String (BatchResult × List Uid) :=
  match bgs.getCompactionTargets 50 with
  | Except.error e => Except.error ("failed to get repos to compact: " ++ e)
  | Except.ok repos0 =>
    let repos := truncateLim lim repos0
    if dry then Except.ok ({ Completed := [], Targets := repos }, [])
    else
      let (results, calls, _) := batchLoop bgs.compactUserShards cancelled fast repos 0
      Except.ok ({ Completed := results, Targets := repos }, calls)

/-- C9: `NewCompactor` leaves the status-snapshot pointer nil, so on a
freshly constructed compactor every `SetState` call dereferences a nil
pointer, and every `CompactNext` call that pops an item (here: after an
arbitrary `EnqueueRepo`) panics at its first `SetState` instead of
recording a stage transition. -/
theorem newCompactor_nil_state_panics :
    NewCompactor.state = none
    ∧ (∀ (uid : Uid) (did status : String) (stats : Option CompactionStats),
        NewCompactor.SetState uid did status stats = none)
    ∧ (∀ (bgs : BGS) (user : User) (fast : Bool),
        (NewCompactor.EnqueueRepo user fast).CompactNext bgs
          = GoResult.panic "invalid memory address or nil pointer dereference") := by
  refine ⟨rfl, fun uid did status stats => rfl, ?_⟩
  intro bgs user fast
  simp [NewCompactor, Compactor.EnqueueRepo, Queue.Append, emptyQueue,
    Compactor.CompactNext, Queue.Pop, Compactor.SetState]

/-- A compactor whose status pointer is initialized and whose queue holds
the single account id 1. -/
def failingCompactor : Compactor :=
  { q := { q := [⟨1, false⟩], members := {1} },
    state := some ⟨0, "", "unknown", none⟩,
    exit := Chan.nil }

/-- Collaborators whose identity lookup always fails. -/
def failingLookupBGS : BGS :=
  { lookupUserByUID := fun _ => Except.error "user not found",
    compactUserShards := fun _ _ => Except.error "not reached",
    getCompactionTargets := fun _ => Except.ok [] }

/-- C1 evidence: when `CompactNext` fails with an error other than
`errNoReposToCompact` it returns a nil state pointer next to the error,
and the error branch of `Run` dereferences that nil pointer while building the
failure log (`state.latestUID`, …): the iteration panics instead of
logging, sleeping 100ms and continuing, so one per-item failure crashes
the loop. -/
theorem run_panics_on_failed_compaction :
    (failingCompactor.CompactNext failingLookupBGS
      = GoResult.ok ⟨⟨⟨[], ∅⟩, some ⟨1, "unknown", "failed_getting_user", none⟩, Chan.nil⟩, 0,
          [⟨1, "unknown", "getting_user", none⟩, ⟨1, "unknown", "failed_getting_user", none⟩],
          none, some (CompactErr.failedGetUser 1 "user not found")⟩)
    ∧ failingCompactor.runStep failingLookupBGS
        = RunOutcome.panicked "invalid memory address or nil pointer dereference"
    ∧ failingCompactor.run failingLookupBGS 1
        = some (RunOutcome.panicked "invalid memory address or nil pointer dereference") := by
  refine ⟨by decide, by decide, by decide⟩

theorem setState_preserves_exit (c : Compactor) (uid : Uid) (did status : String)
    (stats : Option CompactionStats) (c' : Compactor)
    (h : c.SetState uid did status stats = some c') : c'.exit = c.exit := by
  cases hs : c.state with
  | none => simp [Compactor.SetState, hs] at h
  | some s =>
    simp only [Compactor.SetState, hs, Option.some.injEq] at h
    rw [← h]

theorem enqueueAllRepos_preserves_exit (c : Compactor) (bgs : BGS) (lim sc : Int)
    (fast : Bool) (c' : Compactor)
    (h : c.EnqueueAllRepos bgs lim sc fast = Except.ok c') : c'.exit = c.exit := by
  simp only [Compactor.EnqueueAllRepos] at h
  cases hg : bgs.getCompactionTargets (if sc = 0 then 50 else sc) with
  | error e => rw [hg] at h; exact absurd h (by simp)
  | ok repos0 =>
    rw [hg] at h
    simp only [Except.ok.injEq] at h
    rw [← h]

theorem compactNext_preserves_exit (c : Compactor) (bgs : BGS) (out : CompactNextOut)
    (h : c.CompactNext bgs = GoResult.ok out) : out.c.exit = c.exit := by
  cases hq : c.q.q with
  | nil =>
    simp only [Compactor.CompactNext, Queue.Pop, hq, GoResult.ok.injEq] at h
    rw [← h]
  | cons item rest =>
    cases hs : c.state with
    | none =>
      simp only [Compactor.CompactNext, Queue.Pop, hq, Compactor.SetState, hs] at h
      exact absurd h (by simp)
    | some s0 =>
      simp only [Compactor.CompactNext, Queue.Pop, hq, Compactor.SetState, hs] at h
      cases hl : bgs.lookupUserByUID item.uid with
      | error e =>
        rw [hl] at h
        simp only [GoResult.ok.injEq] at h
        rw [← h]
      | ok user =>
        rw [hl] at h
        cases hc : bgs.compactUserShards item.uid item.fast with
        | error e =>
          rw [hc] at h
          simp only [GoResult.ok.injEq] at h
          rw [← h]
        | ok st =>
          rw [hc] at h
          simp only [Compactor.GetState, GoResult.ok.injEq] at h
          rw [← h]

/-- The branch `Run` takes after a non-panicking `CompactNext`, as a
function of the returned error and state pointer. -/
def runStepResult (oc : Compactor) (ors : Option CompactorState)
    (oerr : Option CompactErr) : RunOutcome :=
  match oerr with
  | some CompactErr.noReposToCompact => RunOutcome.continued oc
  | some _ =>
    match ors with
    | none => RunOutcome.panicked "invalid memory address or nil pointer dereference"
    | some _ => RunOutcome.continued oc
  | none => RunOutcome.continued oc

theorem runStep_eq_of_compactNext (c : Compactor) (bgs : BGS)
    (hcr : chanReady c.exit = false) (oc : Compactor) (oobs : Nat)
    (otr : List CompactorState) (ors : Option CompactorState) (oerr : Option CompactErr)
    (hcn : c.CompactNext bgs = GoResult.ok ⟨oc, oobs, otr, ors, oerr⟩) :
    c.runStep bgs = runStepResult oc ors oerr := by
  unfold Compactor.runStep
  rw [hcn, hcr]
  simp [runStepResult]

theorem runStep_no_exit (c : Compactor) (bgs : BGS) (hx : c.exit = Chan.nil) :
    c.runStep bgs ≠ RunOutcome.exited
    ∧ ∀ c', c.runStep bgs = RunOutcome.continued c' → c'.exit = Chan.nil := by
  have hcr : chanReady c.exit = false := by rw [hx]; rfl
  cases hcn : c.CompactNext bgs with
  | panic m =>
    have hrs : c.runStep bgs = RunOutcome.panicked m := by
      unfold Compactor.runStep
      rw [hcn, hcr]
      simp
    rw [hrs]
    exact ⟨by simp, by intro c' hc; simp at hc⟩
  | ok out =>
    obtain ⟨oc, oobs, otr, ors, oerr⟩ := out
    have hexit : oc.exit = c.exit :=
      compactNext_preserves_exit c bgs ⟨oc, oobs, otr, ors, oerr⟩ hcn
    have hrs := runStep_eq_of_compactNext c bgs hcr oc oobs otr ors oerr hcn
    have hcont : ∀ c', oc = c' → c'.exit = Chan.nil := by
      intro c' hc
      rw [← hc, hexit, hx]
    cases oerr with
    | none =>
      rw [hrs]
      exact ⟨by simp [runStepResult], fun c' hc => hcont c' (by simpa [runStepResult] using hc)⟩
    | some e =>
      cases e with
      | noReposToCompact =>
        rw [hrs]
        exact ⟨by simp [runStepResult], fun c' hc => hcont c' (by simpa [runStepResult] using hc)⟩
      | failedGetUser u inner =>
        cases ors with
        | none =>
          rw [hrs]
          exact ⟨by simp [runStepResult], by intro c' hc; simp [runStepResult] at hc⟩
        | some s =>
          rw [hrs]
          exact ⟨by simp [runStepResult], fun c' hc => hcont c' (by simpa [runStepResult] using hc)⟩
      | failedCompact u inner =>
        cases ors with
        | none =>
          rw [hrs]
          exact ⟨by simp [runStepResult], by intro c' hc; simp [runStepResult] at hc⟩
        | some s =>
          rw [hrs]
          exact ⟨by simp [runStepResult], fun c' hc => hcont c' (by simpa [runStepResult] using hc)⟩

theorem run_never_exits (bgs : BGS) :
    ∀ (fuel : Nat) (c : Compactor), c.exit = Chan.nil →
      c.run bgs fuel ≠ some RunOutcome.exited := by
  intro fuel
  induction fuel with
  | zero => intro c _; simp [Compactor.run]
  | succ n ih =>
    intro c hx
    simp only [Compactor.run]
    cases hstep : c.runStep bgs with
    | exited => exact absurd hstep (runStep_no_exit c bgs hx).1
    | panicked m => simp
    | continued c' => exact ih c' ((runStep_no_exit c bgs hx).2 c' hstep)

/-- C10: nothing in the core assigns or closes the exit channel —
`NewCompactor` leaves it nil and every operation hands it through
unchanged — and a receive on it can never fire, so the exit branch of `Run`
is unreachable: for any amount of fuel the loop never takes the exit
return. -/
theorem exit_channel_unreachable :
    NewCompactor.exit = Chan.nil
    ∧ (∀ (c : Compactor) (user : User) (fast : Bool),
        (c.EnqueueRepo user fast).exit = c.exit)
    ∧ (∀ (c : Compactor) (uid : Uid) (did status : String)
        (stats : Option CompactionStats) (c' : Compactor),
        c.SetState uid did status stats = some c' → c'.exit = c.exit)
    ∧ (∀ (c : Compactor) (bgs : BGS) (lim sc : Int) (fast : Bool) (c' : Compactor),
        c.EnqueueAllRepos bgs lim sc fast = Except.ok c' → c'.exit = c.exit)
    ∧ (∀ (c : Compactor) (bgs : BGS) (out : CompactNextOut),
        c.CompactNext bgs = GoResult.ok out → out.c.exit = c.exit)
    ∧ (∀ (c : Compactor) (bgs : BGS), c.exit = Chan.nil →
        ∀ fuel, c.run bgs fuel ≠ some RunOutcome.exited) :=
  ⟨rfl, fun _ _ _ => rfl, setState_preserves_exit, enqueueAllRepos_preserves_exit,
   compactNext_preserves_exit, fun c bgs hx fuel => run_never_exits bgs fuel c hx⟩

/-- Witness for C10: on a freshly constructed compactor with the failing
collaborators, three loop iterations never reach the exit branch, and a
concrete successful `SetState` keeps the nil exit channel. -/
theorem exit_channel_unreachable_witness :
    NewCompactor.run failingLookupBGS 3 ≠ some RunOutcome.exited
    ∧ (Compactor.mk emptyQueue (some ⟨1, "d", "done", none⟩) Chan.nil).exit = Chan.nil := by
  constructor
  · exact exit_channel_unreachable.2.2.2.2.2 NewCompactor failingLookupBGS rfl 3
  · exact exit_channel_unreachable.2.2.1
      (Compactor.mk emptyQueue (some ⟨0, "", "unknown", none⟩) Chan.nil)
      1 "d" "done" none
      (Compactor.mk emptyQueue (some ⟨1, "d", "done", none⟩) Chan.nil) rfl

/-- C2: `CompactNext` follows the per-item state machine when the status
pointer is initialized.  On an empty queue it fails with
`errNoReposToCompact` and changes nothing; otherwise it pops one item,
writes `getting_user`, then either `failed_getting_user` plus a wrapped
error (account id retained in the status), or `compacting` with the
resolved DID, then either `failed_compacting` plus a wrapped error, or
`done` with the returned stats, exactly one duration observation, and
the final snapshot returned.  In every outcome the final queue is the
popped one: the item is never re-enqueued. -/
theorem compactNext_state_machine (c : Compactor) (bgs : BGS) (s0 : CompactorState)
    (hs : c.state = some s0) :
    (c.q.q = [] →
      c.CompactNext bgs
        = GoResult.ok ⟨c, 0, [], none, some CompactErr.noReposToCompact⟩)
    ∧ (∀ item rest, c.q.q = item :: rest →
        (∀ e, bgs.lookupUserByUID item.uid = Except.error e →
          c.CompactNext bgs = GoResult.ok
            ⟨⟨⟨rest, c.q.members.erase item.uid⟩,
              some ⟨item.uid, "unknown", "failed_getting_user", none⟩, c.exit⟩, 0,
             [⟨item.uid, "unknown", "getting_user", none⟩,
              ⟨item.uid, "unknown", "failed_getting_user", none⟩],
             none, some (CompactErr.failedGetUser item.uid e)⟩)
        ∧ (∀ user, bgs.lookupUserByUID item.uid = Except.ok user →
            (∀ e, bgs.compactUserShards item.uid item.fast = Except.error e →
              c.CompactNext bgs = GoResult.ok
                ⟨⟨⟨rest, c.q.members.erase item.uid⟩,
                  some ⟨item.uid, user.Did, "failed_compacting", none⟩, c.exit⟩, 0,
                 [⟨item.uid, "unknown", "getting_user", none⟩,
                  ⟨item.uid, user.Did, "compacting", none⟩,
                  ⟨item.uid, user.Did, "failed_compacting", none⟩],
                 none, some (CompactErr.failedCompact item.uid e)⟩)
            ∧ (∀ st, bgs.compactUserShards item.uid item.fast = Except.ok st →
              c.CompactNext bgs = GoResult.ok
                ⟨⟨⟨rest, c.q.members.erase item.uid⟩,
                  some ⟨item.uid, user.Did, "done", some st⟩, c.exit⟩, 1,
                 [⟨item.uid, "unknown", "getting_user", none⟩,
                  ⟨item.uid, user.Did, "compacting", none⟩,
                  ⟨item.uid, user.Did, "done", some st⟩],
                 some ⟨item.uid, user.Did, "done", some st⟩, none⟩))) := by
  refine ⟨?_, ?_⟩
  · intro hq
    simp [Compactor.CompactNext, Queue.Pop, hq]
  · intro item rest hq
    refine ⟨?_, ?_⟩
    · intro e hl
      simp [Compactor.CompactNext, Queue.Pop, hq, Compactor.SetState, hs, hl]
    · intro user hl
      refine ⟨?_, ?_⟩
      · intro e hcs
        simp [Compactor.CompactNext, Queue.Pop, hq, Compactor.SetState, hs, hl, hcs]
      · intro st hcs
        simp [Compactor.CompactNext, Queue.Pop, hq, Compactor.SetState, hs, hl, hcs,
          Compactor.GetState]

/-- A compactor with initialized status and one queued fast item. -/
def happyCompactor : Compactor :=
  { q := { q := [⟨1, true⟩], members := {1} },
    state := some ⟨0, "", "unknown", none⟩,
    exit := Chan.nil }

/-- Collaborators for which lookup and compaction both succeed. -/
def happyBGS : BGS :=
  { lookupUserByUID := fun u => Except.ok ⟨u, "did:plc:alice"⟩,
    compactUserShards := fun _ _ => Except.ok ⟨7⟩,
    getCompactionTargets := fun _ => Except.ok [] }

/-- Witness for C2 along the fully successful path. -/
theorem compactNext_state_machine_witness :
    happyCompactor.CompactNext happyBGS = GoResult.ok
      ⟨⟨⟨[], ({1} : Finset Uid).erase 1⟩,
        some ⟨1, "did:plc:alice", "done", some ⟨7⟩⟩, Chan.nil⟩, 1,
       [⟨1, "unknown", "getting_user", none⟩,
        ⟨1, "did:plc:alice", "compacting", none⟩,
        ⟨1, "did:plc:alice", "done", some ⟨7⟩⟩],
       some ⟨1, "did:plc:alice", "done", some ⟨7⟩⟩, none⟩ :=
  ((((compactNext_state_machine happyCompactor happyBGS ⟨0, "", "unknown", none⟩ rfl).2
    ⟨1, true⟩ [] rfl).2) ⟨1, "did:plc:alice"⟩ rfl).2 ⟨7⟩ rfl

/-- The items a run of `Append`s adds to a queue whose membership set is
`m`: first occurrences of not-yet-present account ids, in candidate
order, each carrying the given `fast` flag. -/
def newItems (m : Finset Uid) (fast : Bool) : List CompactionTarget → List QueueItem
  | [] => []
  | r :: rs =>
    if r.Usr ∈ m then newItems m fast rs
    else ⟨r.Usr, fast⟩ :: newItems (insert r.Usr m) fast rs

theorem appendAll_q (fast : Bool) :
    ∀ (L : List CompactionTarget) (qu : Queue),
      (appendAll qu L fast).q = qu.q ++ newItems qu.members fast L := by
  intro L
  induction L with
  | nil => intro qu; simp [appendAll, newItems]
  | cons r rs ih =>
    intro qu
    by_cases hin : r.Usr ∈ qu.members
    · have hstep : qu.Append r.Usr fast = qu := by simp [Queue.Append, hin]
      calc (appendAll qu (r :: rs) fast).q
          = (appendAll (qu.Append r.Usr fast) rs fast).q := rfl
        _ = (appendAll qu rs fast).q := by rw [hstep]
        _ = qu.q ++ newItems qu.members fast rs := ih qu
        _ = qu.q ++ newItems qu.members fast (r :: rs) := by
            rw [newItems]; simp [hin]
    · have hstep : qu.Append r.Usr fast
          = { q := qu.q ++ [⟨r.Usr, fast⟩], members := insert r.Usr qu.members } := by
        simp [Queue.Append, hin]
      calc (appendAll qu (r :: rs) fast).q
          = (appendAll (qu.Append r.Usr fast) rs fast).q := rfl
        _ = (qu.q ++ [⟨r.Usr, fast⟩]) ++ newItems (insert r.Usr qu.members) fast rs := by
            rw [hstep]
            exact ih { q := qu.q ++ [⟨r.Usr, fast⟩], members := insert r.Usr qu.members }
        _ = qu.q ++ newItems qu.members fast (r :: rs) := by
            rw [newItems]; simp [hin]

/-- C4: `EnqueueAllRepos` with `shardCountThreshold = 0` issues the
candidate query with 50 instead; with `lim > 0` and more candidates than
`lim`, exactly the first `lim` candidates (in collaborator order)
survive and are appended; and the append loop adds exactly the
not-yet-queued accounts, in order, with the given priority flag —
already-queued accounts are silently skipped by queue dedup. -/
theorem enqueueAllRepos_defaults_and_limit (c : Compactor) (bgs : BGS) (fast : Bool) :
    (∀ lim : Int, c.EnqueueAllRepos bgs lim 0 fast = c.EnqueueAllRepos bgs lim 50 fast)
    ∧ (∀ (lim : Int) (repos0 : List CompactionTarget),
        bgs.getCompactionTargets 50 = Except.ok repos0 →
        0 < lim → lim < (repos0.length : Int) →
        c.EnqueueAllRepos bgs lim 50 fast
          = Except.ok { c with q := appendAll c.q (repos0.take lim.toNat) fast })
    ∧ (∀ (qu : Queue) (L : List CompactionTarget),
        (appendAll qu L fast).q = qu.q ++ newItems qu.members fast L) := by
  refine ⟨?_, ?_, ?_⟩
  · intro lim
    simp [Compactor.EnqueueAllRepos]
  · intro lim repos0 hg h1 h2
    simp [Compactor.EnqueueAllRepos, hg, truncateLim, h1, h2]
  · intro qu L
    exact appendAll_q fast L qu

/-- Collaborators listing four candidates at threshold 50. -/
def listingBGS : BGS :=
  { lookupUserByUID := fun _ => Except.error "unused",
    compactUserShards := fun _ _ => Except.error "unused",
    getCompactionTargets := fun sc =>
      if sc = 50 then Except.ok [⟨10⟩, ⟨11⟩, ⟨12⟩, ⟨13⟩] else Except.ok [] }

/-- Witness for C4: four candidates, `lim = 2`, threshold defaulted. -/
theorem enqueueAllRepos_witness :
    NewCompactor.EnqueueAllRepos listingBGS 2 50 true
      = Except.ok { NewCompactor with
          q := appendAll NewCompactor.q ([⟨10⟩, ⟨11⟩, ⟨12⟩, ⟨13⟩].take (Int.toNat 2)) true }
    ∧ NewCompactor.EnqueueAllRepos listingBGS 2 0 true
      = NewCompactor.EnqueueAllRepos listingBGS 2 50 true := by
  have h := enqueueAllRepos_defaults_and_limit NewCompactor listingBGS true
  exact ⟨h.2.1 2 [⟨10⟩, ⟨11⟩, ⟨12⟩, ⟨13⟩] rfl (by decide) (by decide), h.1 2⟩

/-- The outcomes the batch loop gathers when it runs a candidate list to
completion: one entry per candidate whose compaction call succeeds, in
iteration order; failing candidates are skipped. -/
def processAll (compact : Uid → Bool → Except String CompactionStats) (fast : Bool) :
    List CompactionTarget → List (Uid × CompactionStats)
  | [] => []
  | r :: rs =>
    match compact r.Usr fast with
    | Except.error _ => processAll compact fast rs
    | Except.ok st => (r.Usr, st) :: processAll compact fast rs

theorem batchLoop_no_cancel (compact : Uid → Bool → Except String CompactionStats)
    (cancelled : Nat → Bool) (fast : Bool) (hnc : ∀ i, cancelled i = false) :
    ∀ (L : List CompactionTarget) (i : Nat),
      batchLoop compact cancelled fast L i
        = (processAll compact fast L, L.map CompactionTarget.Usr, false) := by
  intro L
  induction L with
  | nil => intro i; simp [batchLoop, processAll]
  | cons r rs ih =>
    intro i
    simp only [batchLoop, hnc i, Bool.false_eq_true, if_false]
    cases hc : compact r.Usr fast with
    | error e => simp [hc, ih (i + 1), processAll]
    | ok st => simp [hc, ih (i + 1), processAll]

theorem batchLoop_cancel_at (compact : Uid → Bool → Except String CompactionStats)
    (cancelled : Nat → Bool) (fast : Bool) :
    ∀ (k : Nat) (L : List CompactionTarget) (i : Nat),
      k < L.length →
      (∀ j, j < k → cancelled (i + j) = false) →
      cancelled (i + k) = true →
      batchLoop compact cancelled fast L i
        = (processAll compact fast (L.take k),
           (L.take k).map CompactionTarget.Usr, true) := by
  intro k
  induction k with
  | zero =>
    intro L i hlen hb hat
    cases L with
    | nil => simp at hlen
    | cons r rs =>
      simp only [Nat.add_zero] at hat
      simp [batchLoop, hat, processAll]
  | succ k ih =>
    intro L i hlen hb hat
    cases L with
    | nil => simp at hlen
    | cons r rs =>
      have h0 : cancelled i = false := by simpa using hb 0 (Nat.succ_pos k)
      simp only [batchLoop, h0, Bool.false_eq_true, if_false]
      have ihr := ih rs (i + 1) (by simpa using hlen) ?_ ?_
      · cases hc : compact r.Usr fast with
        | error e => simp [hc, ihr, processAll, List.take_succ_cons]
        | ok st => simp [hc, ihr, processAll, List.take_succ_cons]
      · intro j hj
        have := hb (j + 1) (Nat.succ_lt_succ hj)
        simpa [Nat.add_assoc, Nat.add_comm, Nat.add_left_comm] using this
      · simpa [Nat.add_assoc, Nat.add_comm, Nat.add_left_comm] using hat

theorem mem_processAll (compact : Uid → Bool → Except String CompactionStats)
    (fast : Bool) (u : Uid) (st : CompactionStats) :
    ∀ L : List CompactionTarget,
      ((u, st) ∈ processAll compact fast L
        ↔ (∃ r ∈ L, r.Usr = u) ∧ compact u fast = Except.ok st) := by
  intro L
  induction L with
  | nil => simp [processAll]
  | cons r rs ih =>
    cases hc : compact r.Usr fast with
    | error e =>
      simp only [processAll, hc]
      rw [ih]
      constructor
      · rintro ⟨⟨r', hr', hu⟩, hok⟩
        exact ⟨⟨r', List.mem_cons_of_mem r hr', hu⟩, hok⟩
      · rintro ⟨⟨r', hr', hu⟩, hok⟩
        rcases List.mem_cons.mp hr' with he | hm
        · subst he
          rw [hu] at hc
          rw [hc] at hok
          exact absurd hok (by simp)
        · exact ⟨⟨r', hm, hu⟩, hok⟩
    | ok st' =>
      simp only [processAll, hc]
      constructor
      · intro hmem
        rcases List.mem_cons.mp hmem with hpair | hmem2
        · have h1 : u = r.Usr := congrArg Prod.fst hpair
          have h2 : st = st' := congrArg Prod.snd hpair
          refine ⟨⟨r, List.mem_cons_self r rs, h1.symm⟩, ?_⟩
          rw [h1, hc, h2]
        · obtain ⟨⟨r', hr', hu⟩, hok⟩ := ih.mp hmem2
          exact ⟨⟨r', List.mem_cons_of_mem r hr', hu⟩, hok⟩
      · rintro ⟨⟨r', hr', hu⟩, hok⟩
        rcases List.mem_cons.mp hr' with he | hm
        · subst he
          rw [hu] at hc
          have hst : st' = st := Except.ok.inj (hc.symm.trans hok)
          have hp : (u, st) = (r'.Usr, st') := by rw [hu, hst]
          rw [hp]
          exact List.mem_cons_self _ _
        · exact List.mem_cons_of_mem _ (ih.mpr ⟨⟨r', hm, hu⟩, hok⟩)

/-- C5: when the batch driver observes cancellation at the check before
candidate `k`, it returns with no error, `targets` equal to the full
candidate list it iterates, `completed` holding exactly the outcomes of
the `k` candidates already processed, and no compaction call issued
beyond them. -/
theorem batch_cancel_graceful_return (bgs : BGS) (cancelled : Nat → Bool) (lim : Int)
    (fast : Bool) (repos0 : List CompactionTarget) (k : Nat)
    (hrep : bgs.getCompactionTargets 50 = Except.ok repos0)
    (hk : k < (truncateLim lim repos0).length)
    (hbefore : ∀ j, j < k → cancelled j = false)
    (hat : cancelled k = true) :
    bgs.runRepoCompaction cancelled lim false fast
      = Except.ok
          ({ Completed :=
               processAll bgs.compactUserShards fast ((truncateLim lim repos0).take k),
             Targets := truncateLim lim repos0 },
           ((truncateLim lim repos0).take k).map CompactionTarget.Usr) := by
  have hloop := batchLoop_cancel_at bgs.compactUserShards cancelled fast k
    (truncateLim lim repos0) 0 hk (fun j hj => by simpa using hbefore j hj)
    (by simpa using hat)
  simp [BGS.runRepoCompaction, hrep, hloop]

/-- Collaborators for the batch witnesses: three candidates, of which
account 21 fails compaction and the others succeed. -/
def batchBGS : BGS :=
  { lookupUserByUID := fun _ => Except.error "unused",
    compactUserShards := fun u _ =>
      if u = 21 then Except.error "disk full" else Except.ok ⟨u⟩,
    getCompactionTargets := fun _ => Except.ok [⟨20⟩, ⟨21⟩, ⟨22⟩] }

/-- A context observed cancelled from the second iteration check on. -/
def cancelAfterOne : Nat → Bool := fun i => decide (1 ≤ i)

/-- A context never observed cancelled. -/
def neverCancelled : Nat → Bool := fun _ => false

/-- Witness for C5: cancelling after candidate 1 of 3 completes. -/
theorem batch_cancellation_witness :
    batchBGS.runRepoCompaction cancelAfterOne 0 false true
      = Except.ok
          ({ Completed :=
               processAll batchBGS.compactUserShards true
                 ((truncateLim 0 [⟨20⟩, ⟨21⟩, ⟨22⟩]).take 1),
             Targets := truncateLim 0 [⟨20⟩, ⟨21⟩, ⟨22⟩] },
           ((truncateLim 0 [⟨20⟩, ⟨21⟩, ⟨22⟩]).take 1).map CompactionTarget.Usr) :=
  batch_cancel_graceful_return batchBGS cancelAfterOne 0 true [⟨20⟩, ⟨21⟩, ⟨22⟩] 1 rfl
    (by decide)
    (fun j hj => by
      have hz : j = 0 := Nat.lt_one_iff.mp hj
      rw [hz]
      rfl)
    rfl

/-- C6: with no cancellation, the batch runs every candidate, skips the
failing ones (they get no entry in `completed`), records every
stats of every succeeding candidate under its account id, and returns with no
propagated error. -/
theorem batch_partial_failure_isolation (bgs : BGS) (cancelled : Nat → Bool) (lim : Int)
    (fast : Bool) (repos0 : List CompactionTarget)
    (hrep : bgs.getCompactionTargets 50 = Except.ok repos0)
    (hnc : ∀ i, cancelled i = false) :
    (bgs.runRepoCompaction cancelled lim false fast
      = Except.ok
          ({ Completed := processAll bgs.compactUserShards fast (truncateLim lim repos0),
             Targets := truncateLim lim repos0 },
           (truncateLim lim repos0).map CompactionTarget.Usr))
    ∧ (∀ r ∈ truncateLim lim repos0, ∀ e,
        bgs.compactUserShards r.Usr fast = Except.error e →
        ∀ st, (r.Usr, st) ∉ processAll bgs.compactUserShards fast (truncateLim lim repos0))
    ∧ (∀ r ∈ truncateLim lim repos0, ∀ st,
        bgs.compactUserShards r.Usr fast = Except.ok st →
        (r.Usr, st) ∈ processAll bgs.compactUserShards fast (truncateLim lim repos0)) := by
  refine ⟨?_, ?_, ?_⟩
  · have hloop := batchLoop_no_cancel bgs.compactUserShards cancelled fast hnc
      (truncateLim lim repos0) 0
    simp [BGS.runRepoCompaction, hrep, hloop]
  · intro r hr e he st hmem
    rw [mem_processAll] at hmem
    rw [he] at hmem
    exact absurd hmem.2 (by simp)
  · intro r hr st hok
    rw [mem_processAll]
    exact ⟨⟨r, hr, rfl⟩, hok⟩

/-- Witness for C6: candidate 21 of three fails; 20 and 22 succeed. -/
theorem batch_partial_failure_witness :
    (batchBGS.runRepoCompaction neverCancelled 0 false true
      = Except.ok
          ({ Completed :=
               processAll batchBGS.compactUserShards true
                 (truncateLim 0 [⟨20⟩, ⟨21⟩, ⟨22⟩]),
             Targets := truncateLim 0 [⟨20⟩, ⟨21⟩, ⟨22⟩] },
           (truncateLim 0 [⟨20⟩, ⟨21⟩, ⟨22⟩]).map CompactionTarget.Usr))
    ∧ (∀ st, (21, st) ∉ processAll batchBGS.compactUserShards true
        (truncateLim 0 [⟨20⟩, ⟨21⟩, ⟨22⟩]))
    ∧ (20, ⟨20⟩) ∈ processAll batchBGS.compactUserShards true
        (truncateLim 0 [⟨20⟩, ⟨21⟩, ⟨22⟩])
    ∧ (22, ⟨22⟩) ∈ processAll batchBGS.compactUserShards true
        (truncateLim 0 [⟨20⟩, ⟨21⟩, ⟨22⟩]) := by
  have h := batch_partial_failure_isolation batchBGS neverCancelled 0 true
    [⟨20⟩, ⟨21⟩, ⟨22⟩] rfl (fun i => rfl)
  refine ⟨h.1, ?_, ?_, ?_⟩
  · intro st
    exact h.2.1 ⟨21⟩ (by decide) "disk full" rfl st
  · exact h.2.2 ⟨20⟩ (by decide) ⟨20⟩ rfl
  · exact h.2.2 ⟨22⟩ (by decide) ⟨22⟩ rfl

/-- C7: a dry run returns right after candidate listing and truncation,
with `targets` the candidate list, `completed` empty and zero calls to
the compaction collaborator. -/
theorem batch_dry_run_no_compaction (bgs : BGS) (cancelled : Nat → Bool) (lim : Int)
    (fast : Bool) (repos0 : List CompactionTarget)
    (hrep : bgs.getCompactionTargets 50 = Except.ok repos0) :
    bgs.runRepoCompaction cancelled lim true fast
      = Except.ok ({ Completed := [], Targets := truncateLim lim repos0 }, []) := by
  simp [BGS.runRepoCompaction, hrep]

/-- Witness for C7: dry run over the three-candidate collaborators. -/
theorem batch_dry_run_witness :
    batchBGS.runRepoCompaction neverCancelled 0 true true
      = Except.ok ({ Completed := [], Targets := [⟨20⟩, ⟨21⟩, ⟨22⟩] }, []) := by
  have h := batch_dry_run_no_compaction batchBGS neverCancelled 0 true
    [⟨20⟩, ⟨21⟩, ⟨22⟩] rfl
  simpa [truncateLim] using h

end Indigo
